import Mathlib

/-!
# Verification of the skulls CLI core (source: src/src and src/unnamed)

Shallow embedding of the lock store (`skill-lock.ts`, mirrored in `cli.ts`),
the update oracle (`fetchSkillFolderHash`, `runCheck`, `runUpdate`), the
installer (`installer.ts`) and the `add` selection ladder (`add.ts`).

Modelling conventions:
 * JS strings are Lean `String`; JS `null`/`undefined` is `Option.none`.
 * JSON numbers for the schema version field are modelled as `Int`.
 * The filesystem and the network are made explicit: file trees are an
   inductive type, fetches are function arguments, and write effects are
   returned as data.  Filesystem primitives themselves (copying bytes,
   mkdir) are modelled as total, per the spec scope.
 * JS object records (the `skills` map of the lock file) are association
   lists with JS property-assignment semantics (update in place, else
   append).
-/

namespace Skulls

/-- A lock-file entry, from `SkillLockEntry` in `skill-lock.ts` (identical
interface in `cli.ts`).  `skillPath` is optional in the source; `none`
models an absent field and `some ""` an empty string (both falsy in JS). -/
structure SkillLockEntry where
  source : String
  sourceType : String
  sourceUrl : String
  skillPath : Option String
  skillFolderHash : String
  installedAt : String
  updatedAt : String
deriving DecidableEq, Repr

/-- The parsed lock file, from `SkillLockFile` in `skill-lock.ts`. -/
structure LockFileModel where
  version : Int
  skills : List (String × SkillLockEntry)
deriving DecidableEq, Repr

/-- `CURRENT_VERSION` in `skill-lock.ts` (and `CURRENT_LOCK_VERSION` in
`cli.ts`). -/
def CURRENT_LOCK_VERSION : Int := 3

/-- `createEmptyLockFile` from `skill-lock.ts`. -/
def createEmptyLockFile : LockFileModel :=
  { version := CURRENT_LOCK_VERSION, skills := [] }

/-- The shape of the `version` field as `JSON.parse` delivers it:
a number, or a value of some other JSON type (`typeof ... !== 'number'`). -/
inductive RawVersion where
  | num (v : Int)
  | nonNum
deriving DecidableEq, Repr

/-- What `JSON.parse` yields for the lock file, restricted to the fields
`readSkillLock` inspects.  `version = none` models an absent field;
`skills = none` models an absent or falsy `skills` field. -/
structure RawLockFile where
  version : Option RawVersion
  skills : Option (List (String × SkillLockEntry))
deriving DecidableEq, Repr

/-- `readSkillLock` from `skill-lock.ts` lines 53-72 (the synchronous copy
in `cli.ts` lines 203-218 is line-for-line the same logic).  The argument
is `none` when the file is missing or `JSON.parse` throws (the `catch`
branch). -/
def readSkillLock (content : Option RawLockFile) : LockFileModel :=
  match content with
  | none => createEmptyLockFile
  | some parsed =>
    match parsed.version, parsed.skills with
    | some (RawVersion.num v), some sk =>
      if v < CURRENT_LOCK_VERSION then createEmptyLockFile
      else { version := v, skills := sk }
    | _, _ => createEmptyLockFile

/-- The argument of `addSkillToLock`: a lock entry minus the two
timestamps (`Omit<SkillLockEntry, 'installedAt' | 'updatedAt'>`). -/
structure SkillLockEntryData where
  source : String
  sourceType : String
  sourceUrl : String
  skillPath : Option String
  skillFolderHash : String
deriving DecidableEq, Repr

/-- Rebuild a full entry from the data plus the two timestamps, as the
object spread in `addSkillToLock` does. -/
def mkLockEntry (d : SkillLockEntryData) (instAt updAt : String) : SkillLockEntry :=
  { source := d.source, sourceType := d.sourceType, sourceUrl := d.sourceUrl,
    skillPath := d.skillPath, skillFolderHash := d.skillFolderHash,
    installedAt := instAt, updatedAt := updAt }

/-- JS property assignment `obj[k] = v` on a record: replace the value in
place when the key is present, append the pair otherwise. -/
def recordSet (skills : List (String × SkillLockEntry)) (k : String)
    (v : SkillLockEntry) : List (String × SkillLockEntry) :=
  if (skills.lookup k).isSome then
    skills.map (fun p => if p.1 = k then (k, v) else p)
  else
    skills ++ [(k, v)]

/-- `addSkillToLock` from `skill-lock.ts` lines 183-199.  `now` stands for
`new Date().toISOString()`; the surrounding read/write of the lock file is
made explicit by passing the lock in and returning the updated one. -/
def addSkillToLock (lock : LockFileModel) (skillName : String)
    (entry : SkillLockEntryData) (now : String) : LockFileModel :=
  let existingEntry := lock.skills.lookup skillName
  { lock with
    skills := recordSet lock.skills skillName
      (mkLockEntry entry
        (match existingEntry with
         | some old => old.installedAt
         | none => now)
        now) }

theorem lookup_recordSet (skills : List (String × SkillLockEntry))
    (k : String) (v : SkillLockEntry) :
    (recordSet skills k v).lookup k = some v := by
  unfold recordSet
  by_cases h : (skills.lookup k).isSome
  · simp only [h, if_true]
    induction skills with
    | nil => simp [List.lookup] at h
    | cons hd tl ih =>
      by_cases hk : hd.1 = k
      · rw [List.map_cons, if_pos hk]
        simp [List.lookup]
      · have hbeq : (k == hd.1) = false := by
          simp [beq_iff_eq]
          exact fun he => hk he.symm
        simp only [List.map_cons, if_neg hk]
        rw [List.lookup] at h ⊢
        simp only [hbeq] at h ⊢
        exact ih h
  · simp only [h, if_false]
    induction skills with
    | nil => simp [List.lookup]
    | cons hd tl ih =>
      rw [List.lookup] at h
      by_cases hk : (k == hd.1) = true
      · simp [hk] at h
      · have hbeq : (k == hd.1) = false := by simpa using hk
        simp only [hbeq] at h
        simp only [List.cons_append, List.lookup, hbeq]
        exact ih h

/-- C3: reading the lock store yields zero tracked skills whenever the
version tag is absent, malformed (not a number), or strictly below the
current schema version constant (3); such a store is treated identically
to an absent lock file (`readSkillLock none`), with no partial migration
of its entries. -/
theorem readSkillLock_schema_guard (parsed : RawLockFile)
    (h : parsed.version = none ∨ parsed.version = some RawVersion.nonNum ∨
      ∃ v : Int, parsed.version = some (RawVersion.num v) ∧ v < CURRENT_LOCK_VERSION) :
    readSkillLock (some parsed) = readSkillLock none ∧
      (readSkillLock (some parsed)).skills = [] := by
  have hempty : readSkillLock (some parsed) = createEmptyLockFile := by
    obtain ⟨ver, sk⟩ := parsed
    dsimp only at h
    rcases h with h | h | ⟨v, hv, hlt⟩
    · subst h; cases sk <;> rfl
    · subst h; cases sk <;> rfl
    · subst hv
      cases sk with
      | none => rfl
      | some s => simp [readSkillLock, hlt]
  exact ⟨by rw [hempty]; rfl, by rw [hempty]; rfl⟩

/-- A concrete version-1 lock file with one tracked skill. -/
def v1LockFile : RawLockFile :=
  { version := some (RawVersion.num 1),
    skills := some [("web-design",
      { source := "owner/repo", sourceType := "github",
        sourceUrl := "https://github.com/owner/repo",
        skillPath := some "skills/web-design/SKILL.md",
        skillFolderHash := "abc", installedAt := "t0", updatedAt := "t0" })] }

/-- Witness for C3: a `version: 1` lock file holding an entry reads back
exactly like an absent lock file, with zero tracked skills. -/
theorem readSkillLock_schema_guard_witness :
    readSkillLock (some v1LockFile) = readSkillLock none ∧
      (readSkillLock (some v1LockFile)).skills = [] :=
  readSkillLock_schema_guard v1LockFile
    (Or.inr (Or.inr ⟨1, rfl, by decide⟩))

/-- C4: `addSkillToLock` upserts the entry keyed by the skill name: the
stored `installedAt` is preserved when an entry with that name already
exists and is set to `now` otherwise, and `updatedAt` is always set to
`now`.  The right-hand side spells this out: the looked-up result is the
new data with `installedAt` equal to the previous entry's `installedAt`
when there was one (`Option.getD` of the mapped lookup) and `now`
otherwise, and with `updatedAt = now`. -/
theorem addSkillToLock_upsert (lock : LockFileModel) (skillName : String)
    (entry : SkillLockEntryData) (now : String) :
    ((addSkillToLock lock skillName entry now).skills.lookup skillName) =
      some (mkLockEntry entry
        (((lock.skills.lookup skillName).map SkillLockEntry.installedAt).getD now)
        now) := by
  unfold addSkillToLock
  simp only
  rw [lookup_recordSet]
  cases lock.skills.lookup skillName <;> rfl

/-- Per-entry report of the `check` command.  `runCheck` has no notion of
a "missing" or "deleted upstream" skill: an entry is skipped, lands in
`updates`, lands in `errors` (could not check), or is silently up to date. -/
inductive CheckOutcome where
  | upToDate
  | updateAvailable
  | couldNotCheck
  | skipped
deriving DecidableEq, Repr

/-- The skip test of `runCheck` (`cli.ts` line 251) and `runUpdate`
(`cli.ts` line 348):
`entry.sourceType !== 'github' || !entry.skillFolderHash || !entry.skillPath`.
JS falsiness of an optional string (`undefined` or `""`) is
`(· .getD "") == ""`. -/
def shouldSkipEntry (e : SkillLockEntry) : Bool :=
  e.sourceType != "github" || e.skillFolderHash == "" || e.skillPath.getD "" == ""

/-- The comparison step of the `runCheck` loop (`cli.ts` lines 275-284):
`latestHash` is the value of `fetchSkillFolderHash` (`none` models `null`);
a falsy result (null or empty string) goes to `errors` as
"Could not fetch from GitHub", a differing hash goes to `updates`, an
equal hash reports nothing (up to date). -/
def checkFetchedHash (storedHash : String) (latestHash : Option String) : CheckOutcome :=
  match latestHash with
  | none => CheckOutcome.couldNotCheck
  | some h =>
    if h = "" then CheckOutcome.couldNotCheck
    else if h ≠ storedHash then CheckOutcome.updateAvailable
    else CheckOutcome.upToDate

/-- The full per-entry classification of `runCheck` (`cli.ts` lines
247-293): non-checkable entries are counted as skipped before any fetch;
checkable entries are compared against the freshly fetched hash. -/
def classifyEntry (e : SkillLockEntry) (latestHash : Option String) : CheckOutcome :=
  if shouldSkipEntry e then CheckOutcome.skipped
  else checkFetchedHash e.skillFolderHash latestHash

/-- C1: for a checkable entry (`shouldSkipEntry` false) and a fetch result
that is `null` or a genuine (non-empty) fingerprint, the update check
yields exactly one of three outcomes: an equal fetched fingerprint
reports up to date, a differing one reports an update available, and a
`null` fetch reports could-not-check — never an update and never any
"missing" outcome (the `CheckOutcome` type has no such value). -/
theorem runCheck_outcome_trichotomy (e : SkillLockEntry)
    (latestHash : Option String) (hchk : shouldSkipEntry e = false)
    (hfp : latestHash ≠ some "") :
    (latestHash = some e.skillFolderHash →
        classifyEntry e latestHash = CheckOutcome.upToDate) ∧
    (∀ h : String, latestHash = some h → h ≠ e.skillFolderHash →
        classifyEntry e latestHash = CheckOutcome.updateAvailable) ∧
    (latestHash = none →
        classifyEntry e latestHash = CheckOutcome.couldNotCheck ∧
          classifyEntry e latestHash ≠ CheckOutcome.updateAvailable) := by
  have hhash : e.skillFolderHash ≠ "" := by
    intro hh
    simp [shouldSkipEntry, hh] at hchk
  unfold classifyEntry
  rw [hchk]
  simp only [Bool.false_eq_true, if_false]
  refine ⟨?_, ?_, ?_⟩
  · intro heq
    subst heq
    simp [checkFetchedHash, hhash]
  · intro h heq hne
    subst heq
    have hne2 : h ≠ "" := fun h0 => hfp (by rw [h0])
    simp [checkFetchedHash, hne2, hne]
  · intro heq
    subst heq
    simp [checkFetchedHash]

/-- A concrete checkable GitHub lock entry with stored hash `"abc"`. -/
def githubEntryAbc : SkillLockEntry :=
  { source := "owner/repo", sourceType := "github",
    sourceUrl := "https://github.com/owner/repo",
    skillPath := some "skills/demo/SKILL.md",
    skillFolderHash := "abc", installedAt := "t0", updatedAt := "t0" }

/-- Witness for C1: on a concrete checkable entry with stored hash
`"abc"`, a fetched `"abc"` reports up to date. -/
theorem runCheck_outcome_trichotomy_witness :
    classifyEntry githubEntryAbc (some "abc") = CheckOutcome.upToDate :=
  (runCheck_outcome_trichotomy githubEntryAbc (some "abc") (by decide)
    (by decide)).1 rfl

/-- A lock entry from a version-controlled (GitLab) repository source with
a non-empty stored fingerprint and a known skill path. -/
def gitlabEntry : SkillLockEntry :=
  { source := "owner/repo", sourceType := "gitlab",
    sourceUrl := "https://gitlab.com/owner/repo",
    skillPath := some "skills/demo/SKILL.md",
    skillFolderHash := "abc123", installedAt := "t0", updatedAt := "t0" }

/-- Counterexample to C7 as stated: `gitlabEntry` comes from a
version-controlled repository source and has a non-empty
`skillFolderHash` and a known non-empty `skillPath`, so the claim calls
it checkable; the code nevertheless skips it (the check requires
`sourceType === 'github'`), and it is never compared against a fetched
fingerprint. -/
theorem checkable_counterexample :
    gitlabEntry.skillFolderHash ≠ "" ∧ gitlabEntry.skillPath.getD "" ≠ "" ∧
      shouldSkipEntry gitlabEntry = true ∧
      classifyEntry gitlabEntry (some "zzz") = CheckOutcome.skipped := by
  refine ⟨by decide, by decide, by decide, by decide⟩

/-- C7 (amended): an entry is checkable exactly when its `sourceType` is
`"github"` and it has a non-empty `skillFolderHash` and a known non-empty
`skillPath`; every other entry is counted as skipped and is never
reported as up to date or as having an update. -/
theorem checkable_characterization (e : SkillLockEntry) (latestHash : Option String) :
    (shouldSkipEntry e = false ↔
      (e.sourceType = "github" ∧ e.skillFolderHash ≠ "" ∧ e.skillPath.getD "" ≠ "")) ∧
    (shouldSkipEntry e = true →
      classifyEntry e latestHash = CheckOutcome.skipped ∧
        classifyEntry e latestHash ≠ CheckOutcome.upToDate ∧
        classifyEntry e latestHash ≠ CheckOutcome.updateAvailable) := by
  constructor
  · simp [shouldSkipEntry, not_or, and_assoc]
  · intro hskip
    simp [classifyEntry, hskip]

/-- Witness for C7's amended theorem: instantiated at the concrete GitLab
entry, which is skipped. -/
theorem checkable_characterization_witness :
    classifyEntry gitlabEntry (some "zzz") = CheckOutcome.skipped ∧
      classifyEntry gitlabEntry (some "zzz") ≠ CheckOutcome.upToDate ∧
      classifyEntry gitlabEntry (some "zzz") ≠ CheckOutcome.updateAvailable :=
  (checkable_characterization gitlabEntry (some "zzz")).2 (by decide)

/-- `s.endsWith suffix` on JS strings, modelled on the character lists. -/
def strEndsWith (s suffix : String) : Bool :=
  suffix.data.isSuffixOf s.data

/-- `s.slice(0, -n)` on JS strings: drop the last `n` characters. -/
def strDropRight (s : String) (n : Nat) : String :=
  String.mk (s.data.take (s.data.length - n))

/-- `skillPath.replace(/\\/g, '/')`: the pattern is a single character,
so this is a character-wise map. -/
def replaceBackslashes (s : String) : String :=
  String.mk (s.data.map (fun c => if c = '\\' then '/' else c))

/-- The `SKILL.md` suffix stripping shared by `fetchSkillFolderHash`
(`skill-lock.ts` lines 129-133) and `runUpdate` (`cli.ts` lines 388-392):
strip a trailing `/SKILL.md` (9 chars), else a trailing `SKILL.md`
(8 chars). -/
def stripSkillMdSuffix (p : String) : String :=
  if strEndsWith p "/SKILL.md" then strDropRight p 9
  else if strEndsWith p "SKILL.md" then strDropRight p 8
  else p

/-- Strip one trailing `/` (the `endsWith('/')` branches of
`skill-lock.ts` line 135 and `cli.ts` line 393). -/
def stripTrailingSlash (p : String) : String :=
  if strEndsWith p "/" then strDropRight p 1 else p

/-- The `folderPath` normalization at the top of `fetchSkillFolderHash`
(`skill-lock.ts` lines 127-137): backslashes to slashes, strip a trailing
`SKILL.md`, strip a trailing `/`. -/
def normalizeFolderPath (skillPath : String) : String :=
  stripTrailingSlash (stripSkillMdSuffix (replaceBackslashes skillPath))

/-- One entry of the recursive tree listing returned by the GitHub Trees
API (`data.tree` in `fetchSkillFolderHash`). -/
structure TreeEntry where
  path : String
  type : String
  sha : String
deriving DecidableEq, Repr

/-- The parsed Trees API response: the root tree sha plus the recursive
listing. -/
structure TreeListing where
  sha : String
  tree : List TreeEntry
deriving DecidableEq, Repr

/-- The branch loop of `fetchSkillFolderHash` (`skill-lock.ts` lines
141-175).  `fetch b` abstracts the HTTP request for branch `b` of the
given `owner/repo` (headers and token do not affect the result shape):
`none` models a non-ok response or a thrown error, which `continue`s to
the next branch.  On a successful listing: an empty `folderPath` returns
the root sha; a found directory entry returns its sha; otherwise the loop
`continue`s to the next branch. -/
def tryBranches (fetch : String → Option TreeListing) (folderPath : String) :
    List String → Option String
  | [] => none
  | b :: rest =>
    match fetch b with
    | none => tryBranches fetch folderPath rest
    | some data =>
      if folderPath = "" then some data.sha
      else
        match data.tree.find? (fun e => e.type == "tree" && e.path == folderPath) with
        | some e => some e.sha
        | none => tryBranches fetch folderPath rest

/-- `fetchSkillFolderHash` from `skill-lock.ts` lines 122-178, with the
network abstracted into `fetch` (one lookup per candidate branch of the
fixed `ownerRepo`). -/
def fetchSkillFolderHash (fetch : String → Option TreeListing)
    (skillPath : String) : Option String :=
  tryBranches fetch (normalizeFolderPath skillPath) ["main", "master"]

/-- Per-branch result as claim C2 describes it: on a successful listing,
the root sha for an empty subpath, else the sha of the directory
(`type = "tree"`) entry whose path equals the subpath, if any. -/
def branchResult (fetch : String → Option TreeListing) (folderPath : String)
    (b : String) : Option String :=
  (fetch b).bind (fun data =>
    if folderPath = "" then some data.sha
    else (data.tree.find? (fun e => e.type == "tree" && e.path == folderPath)).map
      TreeEntry.sha)

/-- The `main` listing of the C2 counterexample: the fetch succeeds but
the listing contains no entry at all. -/
def mainListingEmpty : TreeListing := { sha := "rootMain", tree := [] }

/-- The `master` listing of the C2 counterexample: it contains the skill
directory. -/
def masterListingWithSkill : TreeListing :=
  { sha := "rootMaster",
    tree := [{ path := "skills/demo", type := "tree", sha := "mastersha" }] }

/-- The concrete fetch environment of the C2 counterexample. -/
def c2fetch : String → Option TreeListing := fun b =>
  if b = "main" then some mainListingEmpty
  else if b = "master" then some masterListingWithSkill
  else none

/-- Counterexample to C2 as stated: the first branch (`main`) yields a
successful listing in which no directory entry matches the subpath
`skills/demo`, so the claim requires the result `null`; the code instead
falls through to `master` and returns that branch's entry sha. -/
theorem fetchSkillFolderHash_counterexample :
    c2fetch "main" = some mainListingEmpty ∧
      mainListingEmpty.tree.find?
        (fun e => e.type == "tree" && e.path == normalizeFolderPath "skills/demo") = none ∧
      normalizeFolderPath "skills/demo" ≠ "" ∧
      fetchSkillFolderHash c2fetch "skills/demo" = some "mastersha" := by
  refine ⟨rfl, rfl, by decide, ?_⟩
  rfl

/-- C2 (amended): `fetchSkillFolderHash` tries the candidate branches in
the fixed order `main` then `master` and returns the first per-branch
result: for a branch whose recursive listing succeeds, the root tree sha
when the normalized subpath is empty, else the sha of the directory
(`type = "tree"`) entry whose path equals the subpath; a branch whose
listing fails, or whose listing lacks such an entry, is passed over in
favour of the next branch; the result is `null` when no branch yields a
result. -/
theorem fetchSkillFolderHash_firstSome (fetch : String → Option TreeListing)
    (skillPath : String) :
    fetchSkillFolderHash fetch skillPath =
      List.findSome? (branchResult fetch (normalizeFolderPath skillPath))
        ["main", "master"] := by
  unfold fetchSkillFolderHash
  generalize normalizeFolderPath skillPath = fp
  have main : ∀ bs : List String,
      tryBranches fetch fp bs = List.findSome? (branchResult fetch fp) bs := by
    intro bs
    induction bs with
    | nil => rfl
    | cons b rest ih =>
      rw [List.findSome?_cons]
      simp only [tryBranches]
      cases hf : fetch b with
      | none =>
        simp only [branchResult, hf, Option.none_bind]
        exact ih
      | some data =>
        simp only [branchResult, hf, Option.some_bind]
        by_cases hfp : fp = ""
        · simp [hfp]
        · simp only [if_neg hfp]
          cases hfind : data.tree.find? (fun e => e.type == "tree" && e.path == fp) with
          | none => simpa using ih
          | some e => simp
  exact main ["main", "master"]

/-- `sourceUrl.replace(/\.git$/, '')`: strip one trailing `.git`. -/
def stripTrailingGit (u : String) : String :=
  if strEndsWith u ".git" then strDropRight u 4 else u

/-- The reinstall URL construction of `runUpdate` (`cli.ts` lines
385-399), inlined exactly as written there: start from the stored
`sourceUrl`; when `skillPath` is truthy, strip `/SKILL.md` (9 chars) else
`SKILL.md` (8 chars) and then one trailing `/` from it, strip a trailing
`.git` and then a trailing `/` from the source URL, and join them with
the literal `/tree/main/` segment. -/
def buildInstallUrl (sourceUrl : String) (skillPath : Option String) : String :=
  match skillPath with
  | none => sourceUrl
  | some sp =>
    if sp = "" then sourceUrl
    else
      let f1 := if strEndsWith sp "/SKILL.md" then strDropRight sp 9
                else if strEndsWith sp "SKILL.md" then strDropRight sp 8
                else sp
      let skillFolder := if strEndsWith f1 "/" then strDropRight f1 1 else f1
      let u1 := if strEndsWith sourceUrl ".git" then strDropRight sourceUrl 4
                else sourceUrl
      let u2 := if strEndsWith u1 "/" then strDropRight u1 1 else u1
      u2 ++ "/tree/main/" ++ skillFolder

/-- C10: for a lock entry with a non-empty `skillPath`, the reinstall URL
is the stored `sourceUrl` with a trailing `.git` and a trailing `/`
stripped, followed by the literal branch segment `/tree/main/` (always
`main`, whatever branch produced the fetched fingerprint), followed by
`skillPath` with a trailing `SKILL.md` (and its preceding `/`) and a
trailing `/` removed; for an absent or empty `skillPath` the stored
`sourceUrl` is used unchanged. -/
theorem runUpdate_installUrl (url : String) (sp : String) :
    buildInstallUrl url none = url ∧
    buildInstallUrl url (some "") = url ∧
    (sp ≠ "" → buildInstallUrl url (some sp) =
      stripTrailingSlash (stripTrailingGit url) ++ "/tree/main/" ++
        stripTrailingSlash (stripSkillMdSuffix sp)) := by
  refine ⟨rfl, rfl, ?_⟩
  intro h
  simp [buildInstallUrl, h, stripTrailingSlash, stripTrailingGit, stripSkillMdSuffix]

/-- Witness for C10 at a concrete entry: a `.git` source URL and a
`SKILL.md`-suffixed skill path produce the expected `/tree/main/` URL. -/
theorem runUpdate_installUrl_witness :
    buildInstallUrl "https://github.com/owner/repo.git" (some "skills/demo/SKILL.md") =
        stripTrailingSlash (stripTrailingGit "https://github.com/owner/repo.git") ++
          "/tree/main/" ++
          stripTrailingSlash (stripSkillMdSuffix "skills/demo/SKILL.md") ∧
      buildInstallUrl "https://github.com/owner/repo.git" (some "skills/demo/SKILL.md") =
        "https://github.com/owner/repo/tree/main/skills/demo" :=
  ⟨(runUpdate_installUrl "https://github.com/owner/repo.git" "skills/demo/SKILL.md").2.2
      (by decide),
    by decide⟩

/-- Outcome of the skill-selection ladder in `runAdd`.  `selected` carries
the skills that proceed to installation; `exitNoMatch` models
`process.exit(1)` after printing the available skill names it carries;
`interactive` models the `p.multiselect` prompt being required. -/
inductive SelectOutcome where
  | selected (skills : List String)
  | exitNoMatch (available : List String)
  | interactive
deriving DecidableEq, Repr

/-- The selection ladder of `runAdd` (`add.ts` lines 645-692), with skills
represented by their names and `filterSkills` (defined in the `skills.ts`
module, which only this flow calls) abstracted as the function `f`.
Branch by branch: `options.skill?.includes('*')`; then
`options.skill && options.skill.length > 0` (with the zero-match
`process.exit(1)` listing the available names); then
`skills.length === 1`; then `options.yes`; else the interactive
multi-select. -/
def selectSkills (skills : List String) (optSkill : Option (List String))
    (yes : Bool) (f : List String → List String → List String) : SelectOutcome :=
  if (optSkill.getD []).contains "*" then SelectOutcome.selected skills
  else if (match optSkill with
           | some l => decide (0 < l.length)
           | none => false) then
    let sel := f skills (optSkill.getD [])
    if sel.length = 0 then SelectOutcome.exitNoMatch skills
    else SelectOutcome.selected sel
  else if skills.length = 1 then SelectOutcome.selected skills
  else if yes then SelectOutcome.selected skills
  else SelectOutcome.interactive

/-- Claim C8's precedence, written from the claim's words: a `*` wildcard
in the skill filter selects all discovered skills; otherwise a non-empty
explicit name filter selects the matching skills, exiting non-zero and
listing the available names when zero match; otherwise a single
discovered skill is auto-selected; otherwise accept-all mode selects all;
otherwise an interactive multi-select is required. -/
def selectSpec (skills : List String) (skillFilter : List String)
    (yes : Bool) (f : List String → List String → List String) : SelectOutcome :=
  if "*" ∈ skillFilter then SelectOutcome.selected skills
  else if skillFilter ≠ [] then
    if f skills skillFilter = [] then SelectOutcome.exitNoMatch skills
    else SelectOutcome.selected (f skills skillFilter)
  else if skills.length = 1 then SelectOutcome.selected skills
  else if yes then SelectOutcome.selected skills
  else SelectOutcome.interactive

/-- C8: the selection ladder of `runAdd` follows exactly the precedence
stated in the claim (`selectSpec`), for every discovered skill list,
skill filter (absent filters behave as empty ones), accept-all flag and
filter function. -/
theorem runAdd_selection_precedence (skills : List String)
    (optSkill : Option (List String)) (yes : Bool)
    (f : List String → List String → List String) :
    selectSkills skills optSkill yes f =
      selectSpec skills (optSkill.getD []) yes f := by
  cases optSkill with
  | none =>
    simp [selectSkills, selectSpec]
  | some l =>
    simp only [selectSkills, selectSpec, Option.getD_some]
    by_cases hw : "*" ∈ l
    · have : l.contains "*" = true := by simpa using hw
      simp [this, hw]
    · have hc : l.contains "*" = false := by simpa using hw
      simp only [hc, Bool.false_eq_true, if_false, if_neg hw]
      cases l with
      | nil => simp
      | cons a as =>
        simp only [List.length_cons]
        have h1 : decide (0 < as.length + 1) = true := by simp
        have h2 : (a :: as) ≠ ([] : List String) := by simp
        simp only [h1, if_true, if_pos h2]
        by_cases hf : f skills (a :: as) = []
        · simp [hf]
        · have hlen : (f skills (a :: as)).length ≠ 0 := by
            simpa [List.length_eq_zero] using hf
          simp [hf, hlen]

/-- The character class the regex `^[.\-]+|[.\-]+$` of `sanitizeName`
strips from both ends. -/
def isSepChar (c : Char) : Bool := c == '.' || c == '-'

/-- The character class `[a-z0-9._]` kept by the first regex of
`sanitizeName` (everything else — including an existing hyphen — is part
of a collapsed run). -/
def isKeptChar (c : Char) : Bool :=
  ('a' ≤ c && c ≤ 'z') || ('0' ≤ c && c ≤ '9') || c == '.' || c == '_'

/-- `.replace(/[^a-z0-9._]+/g, '-')`: a maximal run of characters outside
the kept class becomes a single `'-'`.  The boolean records whether the
previous character belonged to such a run. -/
def collapseRuns : Bool → List Char → List Char
  | _, [] => []
  | inRun, c :: rest =>
    if isKeptChar c then c :: collapseRuns false rest
    else if inRun then collapseRuns true rest
    else '-' :: collapseRuns true rest

/-- `.replace(/^[.\-]+|[.\-]+$/g, '')`: drop the leading and the trailing
run of separator characters. -/
def stripSeparators (l : List Char) : List Char :=
  List.rdropWhile isSepChar (l.dropWhile isSepChar)

/-- The character-list body of `sanitizeName` (`installer.ts` lines
18-25): lower-case (`Char.toLower` is the basic-latin lowering; the JS
`toLowerCase` agrees on it wherever the kept class `[a-z0-9._]` is
concerned), collapse disallowed runs to `'-'`, strip leading/trailing
separators, truncate to 255 (`substring(0, 255)`). -/
def sanitizeChars (name : List Char) : List Char :=
  (stripSeparators (collapseRuns false (name.map Char.toLower))).take 255

/-- `sanitizeName` from `installer.ts` lines 18-25; the
`|| 'unnamed-skill'` fallback fires exactly when the truncated result is
the empty string. -/
def sanitizeName (name : String) : String :=
  if (sanitizeChars name.data).isEmpty then "unnamed-skill"
  else String.mk (sanitizeChars name.data)

theorem mem_collapseRuns (l : List Char) : ∀ (inRun : Bool) (c : Char),
    c ∈ collapseRuns inRun l → isKeptChar c = true ∨ c = '-' := by
  induction l with
  | nil =>
    intro inRun c h
    simp [collapseRuns] at h
  | cons a rest ih =>
    intro inRun c h
    simp only [collapseRuns] at h
    by_cases ha : isKeptChar a
    · rw [if_pos ha] at h
      rcases List.mem_cons.mp h with h1 | h1
      · exact Or.inl (h1 ▸ ha)
      · exact ih false c h1
    · rw [if_neg ha] at h
      cases inRun with
      | true =>
        rw [if_pos rfl] at h
        exact ih true c h
      | false =>
        simp only [Bool.false_eq_true, if_false] at h
        rcases List.mem_cons.mp h with h1 | h1
        · exact Or.inr h1
        · exact ih true c h1

theorem head?_eq_of_prefix {l₁ l₂ : List Char} (h : l₁ <+: l₂)
    (hne : l₁ ≠ []) : l₂.head? = l₁.head? := by
  obtain ⟨t, rfl⟩ := h
  cases l₁ with
  | nil => exact absurd rfl hne
  | cons a s => rfl

theorem stripSeparators_subset (l : List Char) : stripSeparators l ⊆ l := by
  intro c hc
  have h1 : c ∈ l.dropWhile isSepChar :=
    (List.rdropWhile_prefix isSepChar (l.dropWhile isSepChar)).subset hc
  exact (List.dropWhile_suffix isSepChar).subset h1

theorem stripSeparators_head_not_sep (l : List Char) (c : Char)
    (h : (stripSeparators l).head? = some c) : isSepChar c = false := by
  have hne : stripSeparators l ≠ [] := by
    intro h0
    rw [h0] at h
    exact Option.noConfusion h
  have heq : (l.dropWhile isSepChar).head? = (stripSeparators l).head? :=
    head?_eq_of_prefix (List.rdropWhile_prefix isSepChar (l.dropWhile isSepChar)) hne
  have h2 := List.head?_dropWhile_not isSepChar l
  rw [heq, h] at h2
  exact h2

theorem stripSeparators_last_not_sep (l : List Char) (c : Char)
    (h : (stripSeparators l).getLast? = some c) : isSepChar c = false := by
  have hne : stripSeparators l ≠ [] := by
    intro h0
    rw [h0] at h
    exact Option.noConfusion h
  have hlast := List.rdropWhile_last_not isSepChar (l.dropWhile isSepChar) hne
  have h2 : (stripSeparators l).getLast? =
      some ((stripSeparators l).getLast hne) :=
    List.getLast?_eq_getLast _ hne
  rw [h] at h2
  have h3 : c = (stripSeparators l).getLast hne := Option.some.inj h2
  rw [h3]
  exact Bool.not_eq_true _ ▸ (by simpa using hlast)

theorem head?_take255 (l : List Char) : (l.take 255).head? = l.head? := by
  cases l <;> rfl

theorem sanitizeChars_charset (name : List Char) :
    ∀ c ∈ sanitizeChars name, isKeptChar c = true ∨ c = '-' := by
  intro c hc
  have h1 : c ∈ stripSeparators (collapseRuns false (name.map Char.toLower)) :=
    List.take_subset _ _ hc
  exact mem_collapseRuns _ _ _ (stripSeparators_subset _ h1)

theorem sanitizeChars_head_not_sep (name : List Char) (c : Char)
    (h : (sanitizeChars name).head? = some c) : isSepChar c = false := by
  unfold sanitizeChars at h
  rw [head?_take255] at h
  exact stripSeparators_head_not_sep _ _ h

theorem sanitizeChars_length_le (name : List Char) :
    (sanitizeChars name).length ≤ 255 :=
  List.length_take_le _ _

theorem sanitizeChars_last_not_sep (name : List Char)
    (hlen : (sanitizeChars name).length < 255) (c : Char)
    (h : (sanitizeChars name).getLast? = some c) : isSepChar c = false := by
  unfold sanitizeChars at hlen h
  have hs : (stripSeparators (collapseRuns false (name.map Char.toLower))).length ≤ 255 := by
    by_contra hgt
    push_neg at hgt
    rw [List.length_take] at hlen
    omega
  rw [List.take_of_length_le hs] at h
  exact stripSeparators_last_not_sep _ _ h

theorem sanitizeName_head_not_sep (name : String) (c : Char)
    (h : (sanitizeName name).data.head? = some c) : isSepChar c = false := by
  unfold sanitizeName at h
  by_cases he : (sanitizeChars name.data).isEmpty
  · rw [if_pos he] at h
    have : c = 'u' := by
      have h2 : some 'u' = some c := h
      exact (Option.some.inj h2).symm
    rw [this]
    rfl
  · rw [if_neg he] at h
    exact sanitizeChars_head_not_sep _ _ h

theorem sanitizeName_charset (name : String) :
    ∀ c ∈ (sanitizeName name).data, isKeptChar c = true ∨ c = '-' := by
  intro c hc
  unfold sanitizeName at hc
  by_cases he : (sanitizeChars name.data).isEmpty
  · rw [if_pos he] at hc
    fin_cases hc <;> simp [isKeptChar]
  · rw [if_neg he] at hc
    exact sanitizeChars_charset _ c hc

theorem sanitizeName_ne_empty (name : String) : sanitizeName name ≠ "" := by
  unfold sanitizeName
  by_cases he : (sanitizeChars name.data).isEmpty
  · rw [if_pos he]
    intro h
    exact String.noConfusion h (fun hd => List.noConfusion hd)
  · rw [if_neg he]
    intro h
    have hd : sanitizeChars name.data = [] := String.noConfusion h (fun hd => hd)
    rw [List.isEmpty_iff] at he
    exact he hd

/-- A 300-character name: `aa!` repeated 100 times.  Sanitization maps it
to `aa-aa-...` (the `!` runs collapse to hyphens), strips the final
hyphen, and then truncates to 255 characters — the cut falls on a
hyphen. -/
def c5Input : String := String.mk ((List.replicate 100 ['a', 'a', '!']).flatten)

set_option maxRecDepth 20000 in
/-- Counterexample to C5 as stated: the sanitized name of `c5Input` ends
in the separator `'-'` (truncation to 255 characters happens after
leading/trailing separators are stripped, so the cut can leave a trailing
hyphen), contradicting "no leading or trailing separator characters". -/
theorem sanitizeName_counterexample :
    (sanitizeName c5Input).data.getLast? = some '-' ∧
      isSepChar '-' = true ∧ (sanitizeName c5Input).length = 255 := by
  refine ⟨by decide, rfl, by decide⟩

/-- C5 (amended): for every input, `sanitizeName` returns a name whose
characters all lie in `[a-z0-9._-]`, truncated to at most 255
characters, with no leading separator character; it has no trailing
separator character whenever the result is shorter than 255 characters
(truncation at exactly the 255-character bound can cut at a hyphen and
leave it trailing); and when the sanitized form is empty the fixed
placeholder `unnamed-skill` is returned. -/
theorem sanitizeName_props (name : String) :
    ((sanitizeName name).data.all (fun c => isKeptChar c || c == '-') = true) ∧
    (sanitizeName name).length ≤ 255 ∧
    (∀ c, (sanitizeName name).data.head? = some c → isSepChar c = false) ∧
    ((sanitizeName name).length < 255 →
      ∀ c, (sanitizeName name).data.getLast? = some c → isSepChar c = false) ∧
    ((sanitizeChars name.data).isEmpty = true → sanitizeName name = "unnamed-skill") := by
  refine ⟨?_, ?_, ?_, ?_, ?_⟩
  · rw [List.all_eq_true]
    intro c hc
    rcases sanitizeName_charset name c hc with h | h
    · simp [h]
    · simp [h]
  · unfold sanitizeName
    by_cases he : (sanitizeChars name.data).isEmpty
    · rw [if_pos he]
      decide
    · rw [if_neg he]
      exact sanitizeChars_length_le _
  · exact fun c => sanitizeName_head_not_sep name c
  · intro hlen c h
    unfold sanitizeName at hlen h
    by_cases he : (sanitizeChars name.data).isEmpty
    · rw [if_pos he] at h
      have h13 : ("unnamed-skill" : String).data.getLast? = some 'l' := by decide
      rw [h13] at h
      rw [← Option.some.inj h]
      rfl
    · rw [if_neg he] at h hlen
      exact sanitizeChars_last_not_sep _ hlen c h
  · intro he
    unfold sanitizeName
    rw [if_pos he]

/-- Witness for C5's amended theorem at the spec's own example input. -/
theorem sanitizeName_props_witness :
    sanitizeName "My Cool Skill!" = "my-cool-skill" ∧
      isSepChar 'm' = false ∧ isSepChar 'l' = false :=
  ⟨by decide,
    (sanitizeName_props "My Cool Skill!").2.2.1 'm' (by decide),
    (sanitizeName_props "My Cool Skill!").2.2.2.1 (by decide) 'l' (by decide)⟩

/-- Split a relative path into its `/`-separated segments (what `join`
contributes to the composed path before normalization). -/
def splitPathAux : List Char → List Char → List String
  | [], cur => [String.mk cur.reverse]
  | c :: rest, cur =>
    if c = '/' then String.mk cur.reverse :: splitPathAux rest []
    else splitPathAux rest (c :: cur)

/-- Segments of a relative path string. -/
def splitPath (s : String) : List String := splitPathAux s.data []

/-- One step of `normalize(resolve(...))` segment processing: empty and
`.` segments vanish, `..` pops the previous segment (a no-op at the
root), anything else is kept. -/
def normalizeStep (acc : List String) (seg : String) : List String :=
  if seg = "" then acc
  else if seg = "." then acc
  else if seg = ".." then acc.dropLast
  else acc ++ [seg]

/-- `normalize(resolve(p))` on an absolute path given as raw segments. -/
def normalizeSegs (segs : List String) : List String :=
  segs.foldl normalizeStep []

/-- `isPathSafe` from `installer.ts` lines 30-35: the resolved target
must equal the resolved base or extend it by at least one segment
(`startsWith(normalizedBase + sep)`). -/
def isPathSafe (basePath targetPath : List String) : Bool :=
  (normalizeSegs basePath).isPrefixOf (normalizeSegs targetPath)

/-- Result record of the installer functions (`InstallResult` in
`installer.ts`), with the path kept as absolute segments. -/
structure InstallResult where
  success : Bool
  path : List String
  error : Option String
deriving DecidableEq, Repr

/-- The error message of the path-traversal guard in `installer.ts`. -/
def pathTraversalMsg : String := "Invalid skill name: potential path traversal detected"

/-- `installSkill` from `installer.ts` lines 86-117: the raw name is
`skill.name || basename(skill.path)` (`pathBasename` stands for the
latter), sanitized and joined onto the target directory; an unsafe
install dir fails with the traversal error before any filesystem work;
otherwise the clean-and-copy (modelled as total) succeeds. -/
def installSkill (skillName pathBasename : String) (targetDir : List String) :
    InstallResult :=
  let rawSkillName := if skillName = "" then pathBasename else skillName
  let name := sanitizeName rawSkillName
  let installDir := targetDir ++ splitPath name
  if !(isPathSafe targetDir installDir) then
    { success := false, path := installDir, error := some pathTraversalMsg }
  else
    { success := true, path := installDir, error := none }

/-- `installRemoteSkill` from `installer.ts` lines 122-153: same guard on
the install dir; on success the single write is `installDir/SKILL.md`.
The second component lists the resolved paths written. -/
def installRemoteSkill (installName : String) (targetDir : List String) :
    InstallResult × List (List String) :=
  let name := sanitizeName installName
  let installDir := targetDir ++ splitPath name
  if !(isPathSafe targetDir installDir) then
    ({ success := false, path := installDir, error := some pathTraversalMsg }, [])
  else
    ({ success := true, path := installDir, error := none },
      [normalizeSegs (installDir ++ ["SKILL.md"])])

/-- `installWellKnownSkill` from `installer.ts` lines 158-201: same guard
on the install dir; then each file of the skill is written at
`join(installDir, filePath)` unless that path fails `isPathSafe`
against the install dir, in which case the file is skipped
(`continue`) and the loop carries on; the result still reports success.
The second component lists the resolved paths actually written. -/
def installWellKnownSkill (installName : String) (files : List (String × String))
    (targetDir : List String) : InstallResult × List (List String) :=
  let name := sanitizeName installName
  let installDir := targetDir ++ splitPath name
  if !(isPathSafe targetDir installDir) then
    ({ success := false, path := installDir, error := some pathTraversalMsg }, [])
  else
    ({ success := true, path := installDir, error := none },
      files.filterMap (fun pr =>
        let fullPath := installDir ++ splitPath pr.1
        if isPathSafe installDir fullPath then some (normalizeSegs fullPath)
        else none))

/-- The files of the C6 counterexample skill: one file path escaping the
install directory, one ordinary file. -/
def wkFilesEvil : List (String × String) :=
  [("../evil.md", "pwned"), ("SKILL.md", "ok")]

/-- Target directory of the C6 counterexample. -/
def wkTarget : List String := ["home", "user", ".agents", "skills"]

/-- Counterexample to C6 as stated: installing the well-known skill
`demo` whose file map contains `../evil.md` computes a file-write path
that resolves outside the install directory, yet the install reports
success with no error: the unsafe path is quietly skipped (only
`SKILL.md` is written) instead of being fatal for the skill. -/
theorem installWellKnownSkill_counterexample :
    (installWellKnownSkill "demo" wkFilesEvil wkTarget).1.success = true ∧
      (installWellKnownSkill "demo" wkFilesEvil wkTarget).1.error = none ∧
      isPathSafe (wkTarget ++ splitPath (sanitizeName "demo"))
        ((wkTarget ++ splitPath (sanitizeName "demo")) ++ splitPath "../evil.md") = false ∧
      (installWellKnownSkill "demo" wkFilesEvil wkTarget).2 =
        [["home", "user", ".agents", "skills", "demo", "SKILL.md"]] := by
  refine ⟨by decide, by decide, by decide, by decide⟩

theorem sanitizeName_no_slash (name : String) :
    ∀ c ∈ (sanitizeName name).data, c ≠ '/' := by
  intro c hc
  rcases sanitizeName_charset name c hc with h | h
  · intro h0
    rw [h0] at h
    exact absurd h (by decide)
  · intro h0
    rw [h0] at h
    exact absurd h (by decide)

theorem sanitizeName_ne_dot (name : String) : sanitizeName name ≠ "." := by
  intro h
  have hh : (sanitizeName name).data.head? = some '.' := by rw [h]; rfl
  exact absurd (sanitizeName_head_not_sep name '.' hh) (by decide)

theorem sanitizeName_ne_dotdot (name : String) : sanitizeName name ≠ ".." := by
  intro h
  have hh : (sanitizeName name).data.head? = some '.' := by rw [h]; rfl
  exact absurd (sanitizeName_head_not_sep name '.' hh) (by decide)

theorem splitPathAux_no_slash (l : List Char) : ∀ cur : List Char,
    (∀ c ∈ l, c ≠ '/') → splitPathAux l cur = [String.mk (cur.reverse ++ l)] := by
  induction l with
  | nil =>
    intro cur _
    simp [splitPathAux]
  | cons c rest ih =>
    intro cur h
    have hc : c ≠ '/' := h c (List.mem_cons_self _ _)
    simp only [splitPathAux, if_neg hc]
    rw [ih (c :: cur) (fun d hd => h d (List.mem_cons_of_mem _ hd))]
    simp

theorem splitPath_sanitizeName (name : String) :
    splitPath (sanitizeName name) = [sanitizeName name] := by
  unfold splitPath
  rw [splitPathAux_no_slash _ [] (sanitizeName_no_slash name)]
  simp

theorem normalizeSegs_append_single (base : List String) (s : String)
    (h0 : s ≠ "") (h1 : s ≠ ".") (h2 : s ≠ "..") :
    normalizeSegs (base ++ [s]) = normalizeSegs base ++ [s] := by
  unfold normalizeSegs
  rw [List.foldl_append]
  simp [normalizeStep, h0, h1, h2]

theorem isPathSafe_sanitized (targetDir : List String) (name : String) :
    isPathSafe targetDir (targetDir ++ splitPath (sanitizeName name)) = true := by
  rw [splitPath_sanitizeName]
  unfold isPathSafe
  rw [normalizeSegs_append_single targetDir (sanitizeName name)
    (sanitizeName_ne_empty name) (sanitizeName_ne_dot name)
    (sanitizeName_ne_dotdot name)]
  rw [List.isPrefixOf_iff_prefix]
  exact List.prefix_append _ _

/-- C6 (amended): the top-level install directory, derived from the
sanitized skill name, always resolves inside the target directory, so
the fatal path-traversal branch of `installSkill`, `installRemoteSkill`
and `installWellKnownSkill` never fires and every install reports
success; every path actually written by `installWellKnownSkill` resolves
inside the install directory (no write occurs outside the base) — but a
per-file path of a well-known skill that would escape is silently
skipped while the install still reports success, rather than being
fatal. -/
theorem install_path_safety (targetDir : List String)
    (skillName pathBasename installName : String)
    (files : List (String × String)) :
    isPathSafe targetDir (targetDir ++ splitPath (sanitizeName installName)) = true ∧
    (installSkill skillName pathBasename targetDir).success = true ∧
    (installSkill skillName pathBasename targetDir).error = none ∧
    (installRemoteSkill installName targetDir).1.success = true ∧
    (installWellKnownSkill installName files targetDir).1.success = true ∧
    ((installWellKnownSkill installName files targetDir).2.all
      (fun w =>
        (normalizeSegs (targetDir ++ splitPath (sanitizeName installName))).isPrefixOf w))
      = true := by
  have hguard := isPathSafe_sanitized targetDir installName
  refine ⟨hguard, ?_, ?_, ?_, ?_, ?_⟩
  · simp [installSkill, isPathSafe_sanitized]
  · simp [installSkill, isPathSafe_sanitized]
  · simp [installRemoteSkill, isPathSafe_sanitized]
  · simp [installWellKnownSkill, isPathSafe_sanitized]
  · simp only [installWellKnownSkill, hguard, Bool.not_true, Bool.false_eq_true, if_false,
      List.all_eq_true]
    intro w hw
    rcases List.mem_filterMap.mp hw with ⟨pr, _, hpr⟩
    by_cases hsafe : isPathSafe (targetDir ++ splitPath (sanitizeName installName))
        ((targetDir ++ splitPath (sanitizeName installName)) ++ splitPath pr.1) = true
    · rw [if_pos hsafe] at hpr
      unfold isPathSafe at hsafe
      rw [← Option.some.inj hpr]
      exact hsafe
    · rw [if_neg hsafe] at hpr
      exact Option.noConfusion hpr

/-- Does the string start with the given character?  (`name.startsWith('_')`
on the character list.) -/
def startsWithChar (s : String) (c : Char) : Bool :=
  match s.data with
  | [] => false
  | d :: _ => d == c

mutual

/-- A filesystem tree as `copyDirectory` sees it: regular files with
contents, and directories with a (name, subtree) entry list (the
`readdir(..., withFileTypes := true)` view). -/
inductive FsTree where
  | file (content : String)
  | dir (entries : FsEntryList)

/-- Directory entries, as a mutually-inductive list so that all
recursions below are structural. -/
inductive FsEntryList where
  | nil
  | cons (name : String) (tree : FsTree) (rest : FsEntryList)

end

/-- `entry.isDirectory()`. -/
def FsTree.isDir : FsTree → Bool
  | FsTree.file _ => false
  | FsTree.dir _ => true

/-- `isExcluded` from `installer.ts` lines 52-57: `EXCLUDE_FILES`
membership (`README.md`, `metadata.json`) regardless of kind, a leading
underscore, and `EXCLUDE_DIRS` membership (`.git`) only for
directories. -/
def isExcluded (name : String) (isDirectory : Bool) : Bool :=
  if name == "README.md" || name == "metadata.json" then true
  else if startsWithChar name '_' then true
  else if isDirectory && (name == ".git") then true
  else false

mutual

/-- `copyDirectory` from `installer.ts` lines 59-81 viewed as a function
from the source tree to the tree that appears at the destination: the
entry list is filtered by `isExcluded` and each kept entry is copied
(directories recursively, files by `cp`).  Filesystem primitives are
modelled as total. -/
def copyTree : FsTree → FsTree
  | FsTree.file c => FsTree.file c
  | FsTree.dir es => FsTree.dir (copyEntries es)

/-- The `entries.filter(...).map(...)` body of `copyDirectory`. -/
def copyEntries : FsEntryList → FsEntryList
  | FsEntryList.nil => FsEntryList.nil
  | FsEntryList.cons n t rest =>
    if isExcluded n t.isDir then copyEntries rest
    else FsEntryList.cons n (copyTree t) (copyEntries rest)

end

mutual

/-- No entry at any depth of the tree is one `isExcluded` rejects. -/
def noExcludedEntries : FsTree → Bool
  | FsTree.file _ => true
  | FsTree.dir es => noExcludedInList es

/-- List form of `noExcludedEntries`. -/
def noExcludedInList : FsEntryList → Bool
  | FsEntryList.nil => true
  | FsEntryList.cons n t rest =>
    !isExcluded n t.isDir && noExcludedEntries t && noExcludedInList rest

end

/-- First entry with the given name, if any. -/
def lookupEntry : FsEntryList → String → Option FsTree
  | FsEntryList.nil, _ => none
  | FsEntryList.cons n t rest, k => if n = k then some t else lookupEntry rest k

theorem copyTree_isDir (t : FsTree) : (copyTree t).isDir = t.isDir := by
  cases t <;> rfl

mutual

theorem noExcluded_copyTree : ∀ t : FsTree, noExcludedEntries (copyTree t) = true
  | FsTree.file _ => rfl
  | FsTree.dir es => noExcluded_copyEntries es

theorem noExcluded_copyEntries :
    ∀ es : FsEntryList, noExcludedInList (copyEntries es) = true
  | FsEntryList.nil => rfl
  | FsEntryList.cons n t rest => by
    show noExcludedInList
        (if isExcluded n t.isDir then copyEntries rest
         else FsEntryList.cons n (copyTree t) (copyEntries rest)) = true
    by_cases h : isExcluded n t.isDir = true
    · rw [if_pos h]
      exact noExcluded_copyEntries rest
    · rw [if_neg h]
      show (!isExcluded n (copyTree t).isDir && noExcludedEntries (copyTree t) &&
          noExcludedInList (copyEntries rest)) = true
      rw [copyTree_isDir, noExcluded_copyTree t, noExcluded_copyEntries rest]
      simp [Bool.of_not_eq_true h]

end

theorem lookup_copyEntries : ∀ (es : FsEntryList) (name : String) (t : FsTree),
    lookupEntry es name = some t → isExcluded name t.isDir = false →
    lookupEntry (copyEntries es) name = some (copyTree t)
  | FsEntryList.nil, name, t => by
    intro h _
    exact Option.noConfusion h
  | FsEntryList.cons m u rest, name, t => by
    intro hl hexc
    by_cases hm : m = name
    · subst hm
      rw [lookupEntry, if_pos rfl] at hl
      have ht : u = t := Option.some.inj hl
      subst ht
      show lookupEntry
          (if isExcluded m u.isDir then copyEntries rest
           else FsEntryList.cons m (copyTree u) (copyEntries rest)) m = _
      rw [if_neg (by rw [hexc]; exact Bool.false_ne_true)]
      rw [lookupEntry, if_pos rfl]
    · rw [lookupEntry, if_neg hm] at hl
      show lookupEntry
          (if isExcluded m u.isDir then copyEntries rest
           else FsEntryList.cons m (copyTree u) (copyEntries rest)) name = _
      by_cases he : isExcluded m u.isDir = true
      · rw [if_pos he]
        exact lookup_copyEntries rest name t hl hexc
      · rw [if_neg he]
        rw [lookupEntry, if_neg hm]
        exact lookup_copyEntries rest name t hl hexc

/-- The C9 counterexample source directory: a regular file named `.git`,
a directory named `README.md`, and an ordinary `SKILL.md`. -/
def c9Entries : FsEntryList :=
  FsEntryList.cons ".git" (FsTree.file "gitconfig")
    (FsEntryList.cons "README.md" (FsTree.dir FsEntryList.nil)
      (FsEntryList.cons "SKILL.md" (FsTree.file "body") FsEntryList.nil))

/-- Counterexample to C9 as stated: copying `c9Entries` keeps the regular
file named `.git` (so the installed skill directory does contain an
entry with one of the listed names) and drops the *directory* named
`README.md` (which the claim's "all other entries are copied" would have
kept, since it is not a file named `README.md`). -/
theorem copyDirectory_counterexample :
    copyEntries c9Entries =
      FsEntryList.cons ".git" (FsTree.file "gitconfig")
        (FsEntryList.cons "SKILL.md" (FsTree.file "body") FsEntryList.nil) ∧
      isExcluded ".git" false = false ∧
      isExcluded "README.md" true = true := by
  refine ⟨rfl, rfl, rfl⟩

/-- C9 (amended): the recursive copy excludes, at every depth, entries of
either kind named `README.md` or `metadata.json`, entries whose name
starts with `_`, and directories (not regular files) named `.git`; every
other entry is copied (the first entry under a given name, when not
excluded, reappears in the copy with its subtree copied), so the
installed skill directory contains no excluded entry at any depth —
though it may contain a regular file named `.git`. -/
theorem copyDirectory_exclusions (t : FsTree) (es : FsEntryList)
    (name : String) (s : FsTree) :
    noExcludedEntries (copyTree t) = true ∧
    (lookupEntry es name = some s → isExcluded name s.isDir = false →
      lookupEntry (copyEntries es) name = some (copyTree s)) ∧
    isExcluded ".git" false = false :=
  ⟨noExcluded_copyTree t, lookup_copyEntries es name s, rfl⟩

/-- Witness for C9's amended theorem on the concrete directory: the copy
of the counterexample tree has no excluded entries, and its `SKILL.md`
survives the copy unchanged. -/
theorem copyDirectory_exclusions_witness :
    noExcludedEntries (copyTree (FsTree.dir c9Entries)) = true ∧
      lookupEntry (copyEntries c9Entries) "SKILL.md" =
        some (copyTree (FsTree.file "body")) :=
  ⟨(copyDirectory_exclusions (FsTree.dir c9Entries) c9Entries "SKILL.md"
      (FsTree.file "body")).1,
    (copyDirectory_exclusions (FsTree.dir c9Entries) c9Entries "SKILL.md"
      (FsTree.file "body")).2.1 (by rfl) rfl⟩

end Skulls
